import Mathlib

/-!
Verification of the vertex-colouring MILP formulation in
`src/coloring/coloring.py` (functions `coloring` and
`_colouring_lpproblem`).  The pulp problem is embedded as an explicit
list of linear constraints over a variable alphabet, floats are
modelled as exact rationals, and the two ways the Python code can raise
(`eval` of an empty linear-expression string, and a missing dictionary
key in the preservation loop) are modelled by an `Except` error value.
-/

namespace Coloring

/-- Per-vertex attributes read and written by the routine: the colour
label (`none` when unset), the relevance flag, and the weight.  These
embed the three igraph vertex attributes `colour`, `relevant` and
`weight`; weights are modelled as exact rationals. -/
structure Vertex where
  color : Option Int
  relevant : Bool
  weight : ℚ
deriving DecidableEq

instance : Inhabited Vertex := ⟨⟨none, false, 1⟩⟩

/-- An igraph graph as the code uses it: an indexed list of vertices and
a list of edges given as (source, target) index pairs. -/
structure Graph where
  vs : List Vertex
  es : List (Nat × Nat)
deriving DecidableEq

/-- Attribute record of vertex `i` (vertices are indexed `0..|V|-1`). -/
def vAttr (g : Graph) (i : Nat) : Vertex := g.vs.getD i default

/-- Colour attribute of vertex `i`. -/
def vertexColor (g : Graph) (i : Nat) : Option Int := (vAttr g i).color

/-- The list `relevants = [i for i in range(len(graph.vs)) if graph.vs[i][relevant_lbl]]`. -/
def relevants (g : Graph) : List Nat :=
  (List.range g.vs.length).filter (fun i => (vAttr g i).relevant)

/-- The constant `big_number = len(relevants) * sum(range(len(graph.vs))) * 2`. -/
def big_number (g : Graph) : Nat :=
  (relevants g).length * (List.range g.vs.length).sum * 2

/-- The decision variables of the LP problem: `xc c` is the binary
variable named `Colour variable x(c)` (colour `c` is used) and
`xic i c` the binary variable named `Node Colour variable x(i,c)`
(vertex `i` gets colour `c`). -/
inductive Var where
  | xc : Nat → Var
  | xic : Nat → Nat → Var
deriving DecidableEq

/-- Comparison operator of a linear constraint. -/
inductive Cmp where
  | le
  | eq
  | ge
deriving DecidableEq

/-- One linear constraint: a list of (coefficient, variable) terms, a
comparison operator and a right-hand-side constant. -/
structure Constraint where
  terms : List (ℚ × Var)
  cmp : Cmp
  rhs : ℚ
deriving DecidableEq

/-- The pulp problem built by `_colouring_lpproblem`: a linear objective
(to be minimised) and the constraint list, in the order of addition.
All declared variables are binary (lower bound 0, upper bound 1,
integer category); that bound is part of `feasible` below. -/
structure LpProblem where
  objective : List (ℚ × Var)
  constraints : List Constraint
deriving DecidableEq

instance : Inhabited LpProblem := ⟨⟨[], []⟩⟩

/-- How the Python construction can raise: `eval` applied to an empty
linear-expression string (a `SyntaxError`), or the lookup
`xic[(i, colour)]` with a key absent from the variable dictionary
(a `KeyError`). -/
inductive BuildError where
  | evalSyntaxError
  | keyError
deriving DecidableEq

/-- Objective terms, in construction order: first
`big_number * xc[c]` for each candidate colour `c`, then
`c * xic[(i,c)]` for each relevant `i` and each candidate colour `c`. -/
def objTerms (g : Graph) : List (ℚ × Var) :=
  (List.range g.vs.length).map (fun c => ((big_number g : ℚ), Var.xc c))
    ++ (relevants g).flatMap (fun i =>
        (List.range g.vs.length).map (fun (c : Nat) => ((c : ℚ), Var.xic i c)))

/-- The exactly-one-colour constraint for vertex `i`:
`sum_c xic[(i,c)] == 1`. -/
def oneColorCon (n i : Nat) : Constraint :=
  ⟨(List.range n).map (fun c => ((1 : ℚ), Var.xic i c)), Cmp.eq, 1⟩

/-- The adjacency constraint for edge `(u,v)` and colour `c`:
`xic[(u,c)] + xic[(v,c)] <= 1`. -/
def adjCon (u v c : Nat) : Constraint :=
  ⟨[((1 : ℚ), Var.xic u c), ((1 : ℚ), Var.xic v c)], Cmp.le, 1⟩

/-- The capacity constraint for colour `c`:
`sum_i weight[i] * xic[(i,c)] <= wmax` over the relevant vertices. -/
def capCon (g : Graph) (wmax : ℚ) (c : Nat) : Constraint :=
  ⟨(relevants g).map (fun i => ((vAttr g i).weight, Var.xic i c)), Cmp.le, wmax⟩

/-- The linking constraint for relevant `i` and colour `c`:
`xc[c] - xic[(i,c)] >= 0`. -/
def linkCon (i c : Nat) : Constraint :=
  ⟨[((1 : ℚ), Var.xc c), ((-1 : ℚ), Var.xic i c)], Cmp.ge, 0⟩

/-- The preservation constraint for vertex `i` with pre-set colour `k`:
`xic[(i,k)] == 1`. -/
def presCon (i k : Nat) : Constraint :=
  ⟨[((1 : ℚ), Var.xic i k)], Cmp.eq, 1⟩

/-- The exactly-one-colour constraints, one per relevant vertex, in
order. -/
def oneColorCons (g : Graph) : List Constraint :=
  (relevants g).map (fun i => oneColorCon g.vs.length i)

/-- The adjacency constraints: for each edge whose source and target are
both relevant, one constraint per candidate colour. -/
def adjCons (g : Graph) : List Constraint :=
  g.es.flatMap (fun e =>
    if e.1 ∈ relevants g ∧ e.2 ∈ relevants g then
      (List.range g.vs.length).map (fun c => adjCon e.1 e.2 c)
    else [])

/-- The capacity constraints, one per candidate colour. -/
def capCons (g : Graph) (wmax : ℚ) : List Constraint :=
  (List.range g.vs.length).map (fun c => capCon g wmax c)

/-- The linking constraints, for each relevant vertex and each candidate
colour. -/
def linkCons (g : Graph) : List Constraint :=
  (relevants g).flatMap (fun i =>
    (List.range g.vs.length).map (fun c => linkCon i c))

/-- The preservation loop `for i, v in enumerate(graph.vs)`: a vertex
with a set colour that is relevant contributes `xic[(i, colour)] == 1`;
the dictionary lookup raises a `KeyError` when the colour is not one of
the keys `0..n-1`. -/
def presLoop (n : Nat) (R : List Nat) : Nat → List Vertex → Except BuildError (List Constraint)
  | _, [] => .ok []
  | i, v :: rest =>
    match v.color with
    | none => presLoop n R (i + 1) rest
    | some k =>
      if i ∈ R then
        if 0 ≤ k ∧ k < (n : Int) then
          match presLoop n R (i + 1) rest with
          | .ok cs => .ok (presCon i k.toNat :: cs)
          | .error e => .error e
        else .error .keyError
      else presLoop n R (i + 1) rest

/-- The constraint list of the built problem, in the order the Python
code adds constraints. -/
def consList (g : Graph) (wmax : ℚ) (pres : List Constraint) : List Constraint :=
  oneColorCons g ++ adjCons g ++ capCons g wmax ++ linkCons g ++ pres

/-- The problem builder `_colouring_lpproblem(graph, wmax, ...)`.  With
zero vertices the objective string is empty and its `eval` raises a
`SyntaxError`; with no relevant vertex (and at least one vertex) the
first capacity-constraint string is `" <= wmax"` and its `eval` raises a
`SyntaxError`; a relevant vertex with a pre-set colour outside
`0..n-1` raises a `KeyError` in the preservation loop.  Otherwise the
problem is returned. -/
def _colouring_lpproblem (g : Graph) (wmax : ℚ) : Except BuildError LpProblem :=
  if g.vs.length = 0 then .error .evalSyntaxError
  else if relevants g = [] then .error .evalSyntaxError
  else
    match presLoop g.vs.length (relevants g) 0 g.vs with
    | .error e => .error e
    | .ok pres => .ok ⟨objTerms g, consList g wmax pres⟩

/-- Result of the external solver: a pulp status code (`1` is Optimal)
and a value for every variable. -/
structure SolverResult where
  status : Int
  value : Var → ℚ

/-- Total weight of all vertices, `sum(graph.vs[weights])`. -/
def totalWeight (g : Graph) : ℚ :=
  (g.vs.map Vertex.weight).sum

/-- The effective capacity bound: the Python test `if not wmax` treats
both `None` and `0` as unset and replaces them by the total weight. -/
def resolveWmax (g : Graph) : Option ℚ → ℚ
  | none => totalWeight g
  | some w => if w = 0 then totalWeight g else w

/-- Clearing every colour attribute:
`graph.vs[color_lbl] = [None] * len(graph.vs)`. -/
def clearColors (g : Graph) : Graph :=
  { g with vs := g.vs.map (fun v => { v with color := none }) }

/-- The graph state just before formulation: unchanged when `preserve`
holds, all colours cleared otherwise. -/
def prepGraph (g : Graph) : Bool → Graph
  | true => g
  | false => clearColors g

/-- The solver tolerance `epsilon = 0.5`. -/
def epsilon : ℚ := 1 / 2

/-- Writing colour `k` into vertex `i` (in-place update of
`graph.vs[i][color_lbl]`; out-of-range indices never occur). -/
def setColor (g : Graph) (i : Nat) (k : Int) : Graph :=
  match g.vs[i]? with
  | some v => { g with vs := g.vs.set i { v with color := some k } }
  | none => g

/-- The (vertex, colour) index pairs of the `xic` variables, in
construction order. -/
def xicPairs (g : Graph) : List (Nat × Nat) :=
  (relevants g).flatMap (fun i =>
    (List.range g.vs.length).map (fun c => (i, c)))

/-- The result-extraction loop: every `Node Colour` variable whose value
exceeds the tolerance writes its colour into its vertex.  (pulp returns
the variables sorted by name; the reordering is immaterial whenever at
most one variable per vertex exceeds the tolerance, which is the only
situation the theorems below address.) -/
def extractLoop (val : Var → ℚ) : List (Nat × Nat) → Graph → Graph
  | [], g => g
  | p :: ps, g =>
      extractLoop val ps
        (if epsilon < val (Var.xic p.1 p.2) then setColor g p.1 (Int.ofNat p.2) else g)

/-- The public entry point `coloring(graph, wmax, preserve, ...)`, with
the external solver passed explicitly.  It resolves the capacity bound,
clears colours unless `preserve` holds, builds the problem, solves it,
and on status Optimal (`1`) extracts the assignment into the graph,
returning `1`; on any other status it returns `0` with the graph as it
stood just before solving.  A `BuildError` models the uncaught Python
exception. -/
def coloring (g : Graph) (wmax : Option ℚ) (preserve : Bool)
    (solve : LpProblem → SolverResult) : Except BuildError (Nat × Graph) :=
  let w := resolveWmax g wmax
  let g1 := prepGraph g preserve
  match _colouring_lpproblem g1 w with
  | .error e => .error e
  | .ok p =>
    let res := solve p
    if res.status = 1 then
      .ok (1, extractLoop res.value (xicPairs g1) g1)
    else
      .ok (0, g1)

/-- Value of a linear term list under a variable valuation. -/
def evalTerms (val : Var → ℚ) (ts : List (ℚ × Var)) : ℚ :=
  (ts.map (fun t => t.1 * val t.2)).sum

/-- Satisfaction of one linear constraint. -/
def satisfies (val : Var → ℚ) (con : Constraint) : Prop :=
  match con.cmp with
  | .le => evalTerms val con.terms ≤ con.rhs
  | .eq => evalTerms val con.terms = con.rhs
  | .ge => con.rhs ≤ evalTerms val con.terms

instance (val : Var → ℚ) (con : Constraint) : Decidable (satisfies val con) :=
  match con with
  | ⟨ts, Cmp.le, r⟩ => inferInstanceAs (Decidable (evalTerms val ts ≤ r))
  | ⟨ts, Cmp.eq, r⟩ => inferInstanceAs (Decidable (evalTerms val ts = r))
  | ⟨ts, Cmp.ge, r⟩ => inferInstanceAs (Decidable (r ≤ evalTerms val ts))

/-- The binary variable bounds declared in the problem: every `xc` and
every `xic` variable (over relevant vertices and candidate colours) is 0
or 1. -/
def binaryOn (g : Graph) (val : Var → ℚ) : Prop :=
  (∀ c < g.vs.length, val (Var.xc c) = 0 ∨ val (Var.xc c) = 1) ∧
  (∀ i ∈ relevants g, ∀ c < g.vs.length,
    val (Var.xic i c) = 0 ∨ val (Var.xic i c) = 1)

instance (g : Graph) (val : Var → ℚ) : Decidable (binaryOn g val) := by
  unfold binaryOn
  exact inferInstance

/-- A feasible solution of the built problem: the declared binary bounds
together with every constraint. -/
def feasible (g : Graph) (p : LpProblem) (val : Var → ℚ) : Prop :=
  binaryOn g val ∧ ∀ con ∈ p.constraints, satisfies val con

instance (g : Graph) (p : LpProblem) (val : Var → ℚ) : Decidable (feasible g p val) := by
  unfold feasible
  exact inferInstance

instance {ε α : Type} [DecidableEq ε] [DecidableEq α] : DecidableEq (Except ε α) :=
  fun a b =>
    match a, b with
    | .ok x, .ok y =>
        if h : x = y then .isTrue (by rw [h]) else .isFalse (by simp [h])
    | .ok _, .error _ => .isFalse (by simp)
    | .error _, .ok _ => .isFalse (by simp)
    | .error e, .error f =>
        if h : e = f then .isTrue (by rw [h]) else .isFalse (by simp [h])

/-- A one-vertex graph with its vertex relevant and of weight 1; used as
a concrete instance in witnesses and counterexamples. -/
def gW : Graph := ⟨[⟨none, true, 1⟩], []⟩

/-- The problem `_colouring_lpproblem` builds on `gW` with bound 1. -/
def pW : LpProblem := ((_colouring_lpproblem gW 1).toOption).getD default

/-- A valuation assigning 1 to every variable; feasible for `pW`. -/
def valW : Var → ℚ := fun _ => 1

/-- A two-vertex graph, both vertices relevant with weight 1, joined by
one edge. -/
def gE : Graph := ⟨[⟨none, true, 1⟩, ⟨none, true, 1⟩], [(0, 1)]⟩

/-- The problem built on `gE` with bound 2. -/
def pE : LpProblem := ((_colouring_lpproblem gE 2).toOption).getD default

/-- A feasible valuation for `pE`: vertex 0 takes colour 0, vertex 1
takes colour 1, both colours marked used. -/
def valE : Var → ℚ :=
  fun v =>
    match v with
    | Var.xc _ => 1
    | Var.xic 0 0 => 1
    | Var.xic 1 1 => 1
    | Var.xic _ _ => 0

/-- A one-vertex graph whose relevant vertex carries pre-set colour 0. -/
def gP7 : Graph := ⟨[⟨some 0, true, 1⟩], []⟩

/-- The problem built on `gP7` with bound 1. -/
def pP7 : LpProblem := ((_colouring_lpproblem gP7 1).toOption).getD default

/-- A one-vertex graph whose relevant vertex carries the out-of-range
pre-set colour 5. -/
def gP10 : Graph := ⟨[⟨some 5, true, 1⟩], []⟩

/-- The empty graph. -/
def gE0 : Graph := ⟨[], []⟩

/-- A one-vertex graph whose only vertex is not relevant. -/
def gE1 : Graph := ⟨[⟨some 5, false, 1⟩], []⟩

/-- A two-vertex graph whose second vertex is not relevant and carries
colour 5. -/
def gC6 : Graph := ⟨[⟨none, true, 1⟩, ⟨some 5, false, 1⟩], []⟩

/-- A one-vertex graph of weight 2 (so its total weight differs from
every admissible supplied bound in the counterexample below). -/
def gW8 : Graph := ⟨[⟨none, true, 2⟩], []⟩

/-- The problem built on `gW8` with the bound that `coloring` resolves
from a supplied bound of 0. -/
def pW8 : LpProblem := ((_colouring_lpproblem gW8 (resolveWmax gW8 (some 0))).toOption).getD default

/-- The problem built on `gW8` with the supplied (positive) bound 3. -/
def pC8 : LpProblem := ((_colouring_lpproblem gW8 3).toOption).getD default

/-- A stub external solver that reports status 0 (not solved). -/
def solve0 : LpProblem → SolverResult := fun _ => ⟨0, fun _ => 0⟩

/-- A stub external solver that reports status 1 (Optimal) and assigns
vertex 0 to colour 0. -/
def solveOpt : LpProblem → SolverResult :=
  fun _ =>
    ⟨1, fun v =>
      match v with
      | Var.xic 0 0 => 1
      | Var.xc 0 => 1
      | _ => 0⟩

/-! Basic lemmas about the graph state transformations. -/

theorem length_clearColors (g : Graph) : (clearColors g).vs.length = g.vs.length := by
  simp [clearColors]

theorem vertexColor_clearColors (g : Graph) (i : Nat) :
    vertexColor (clearColors g) i = none := by
  simp only [vertexColor, vAttr, clearColors, List.getD_eq_getElem?_getD, List.getElem?_map]
  cases g.vs[i]? <;> rfl

theorem vAttr_relevant_clearColors (g : Graph) (i : Nat) :
    (vAttr (clearColors g) i).relevant = (vAttr g i).relevant := by
  simp only [vAttr, clearColors, List.getD_eq_getElem?_getD, List.getElem?_map]
  cases g.vs[i]? <;> rfl

theorem relevants_clearColors (g : Graph) : relevants (clearColors g) = relevants g := by
  unfold relevants
  rw [length_clearColors]
  exact List.filter_congr (fun i _ => by rw [vAttr_relevant_clearColors])

theorem relevants_prepGraph (g : Graph) (pr : Bool) :
    relevants (prepGraph g pr) = relevants g := by
  cases pr
  · exact relevants_clearColors g
  · rfl

theorem length_prepGraph (g : Graph) (pr : Bool) :
    (prepGraph g pr).vs.length = g.vs.length := by
  cases pr
  · exact length_clearColors g
  · rfl

theorem vertexColor_prepGraph (g : Graph) (pr : Bool) (i : Nat) :
    vertexColor (prepGraph g pr) i = if pr then vertexColor g i else none := by
  cases pr
  · exact vertexColor_clearColors g i
  · rfl

theorem mem_relevants (g : Graph) (i : Nat) :
    i ∈ relevants g ↔ i < g.vs.length ∧ (vAttr g i).relevant = true := by
  simp [relevants, List.mem_filter, List.mem_range]

theorem nodup_relevants (g : Graph) : (relevants g).Nodup :=
  (List.nodup_range g.vs.length).filter _

theorem length_setColor (g : Graph) (i : Nat) (k : Int) :
    (setColor g i k).vs.length = g.vs.length := by
  unfold setColor
  cases g.vs[i]? <;> simp

theorem vertexColor_setColor_self (g : Graph) (i : Nat) (k : Int) (h : i < g.vs.length) :
    vertexColor (setColor g i k) i = some k := by
  unfold setColor
  rw [List.getElem?_eq_getElem h]
  simp [vertexColor, vAttr, List.getD_eq_getElem?_getD, List.getElem?_set_self, h]

theorem vertexColor_setColor_ne (g : Graph) (i j : Nat) (k : Int) (h : i ≠ j) :
    vertexColor (setColor g i k) j = vertexColor g j := by
  unfold setColor
  cases g.vs[i]? <;>
    simp [vertexColor, vAttr, List.getD_eq_getElem?_getD, List.getElem?_set_ne h]

/-! Lemmas about the result-extraction loop. -/

theorem length_extractLoop (val : Var → ℚ) (ps : List (Nat × Nat)) (g : Graph) :
    (extractLoop val ps g).vs.length = g.vs.length := by
  induction ps generalizing g with
  | nil => rfl
  | cons p ps ih =>
    unfold extractLoop
    rw [ih]
    split
    · exact length_setColor g p.1 (Int.ofNat p.2)
    · rfl

theorem extractLoop_append (val : Var → ℚ) (a b : List (Nat × Nat)) (g : Graph) :
    extractLoop val (a ++ b) g = extractLoop val b (extractLoop val a g) := by
  induction a generalizing g with
  | nil => rfl
  | cons p a ih =>
    simp only [List.cons_append, extractLoop]
    exact ih _

theorem extractLoop_no_set (val : Var → ℚ) (ps : List (Nat × Nat)) (g : Graph)
    (h : ∀ p ∈ ps, ¬ epsilon < val (Var.xic p.1 p.2)) :
    extractLoop val ps g = g := by
  induction ps generalizing g with
  | nil => rfl
  | cons p ps ih =>
    unfold extractLoop
    rw [if_neg (h p (List.mem_cons_self p ps))]
    exact ih g (fun q hq => h q (List.mem_cons_of_mem p hq))

theorem vertexColor_extractLoop_ne (val : Var → ℚ) (i : Nat) (ps : List (Nat × Nat))
    (g : Graph) (h : ∀ p ∈ ps, p.1 ≠ i) :
    vertexColor (extractLoop val ps g) i = vertexColor g i := by
  induction ps generalizing g with
  | nil => rfl
  | cons p ps ih =>
    unfold extractLoop
    rw [ih _ (fun q hq => h q (List.mem_cons_of_mem p hq))]
    split
    · exact vertexColor_setColor_ne g p.1 i (Int.ofNat p.2) (h p (List.mem_cons_self p ps))
    · rfl

theorem vertexColor_extractLoop_unique (val : Var → ℚ) (i c : Nat) (cs : List Nat)
    (g : Graph) (hlen : i < g.vs.length) (hc : c ∈ cs)
    (hval : epsilon < val (Var.xic i c))
    (huniq : ∀ c' ∈ cs, epsilon < val (Var.xic i c') → c' = c) :
    vertexColor (extractLoop val (cs.map (fun x => (i, x))) g) i = some (Int.ofNat c) := by
  induction cs generalizing g with
  | nil => exact absurd hc (List.not_mem_nil c)
  | cons c0 cs ih =>
    simp only [List.map_cons, extractLoop]
    by_cases h0 : epsilon < val (Var.xic i c0)
    · have hc0 : c0 = c := huniq c0 (List.mem_cons_self c0 cs) h0
      subst hc0
      rw [if_pos h0]
      by_cases hmem : c0 ∈ cs
      · exact ih _ (by rw [length_setColor]; exact hlen) hmem
          (fun c' h1 h2 => huniq c' (List.mem_cons_of_mem c0 h1) h2)
      · rw [extractLoop_no_set]
        · exact vertexColor_setColor_self g i (Int.ofNat c0) hlen
        · intro p hp
          obtain ⟨x, hx, rfl⟩ := List.mem_map.mp hp
          intro hcon
          have hxc : x = c0 := huniq x (List.mem_cons_of_mem c0 hx) hcon
          rw [hxc] at hx
          exact absurd hx hmem
    · rw [if_neg h0]
      have hcc : c ∈ cs := by
        rcases List.mem_cons.mp hc with h | h
        · subst h; exact absurd hval h0
        · exact h
      exact ih g hlen hcc (fun c' h1 h2 => huniq c' (List.mem_cons_of_mem c0 h1) h2)

/-! Lemmas about the preservation loop. -/

theorem presLoop_ok_or_keyError (n : Nat) (R : List Nat) (vs : List Vertex) (i0 : Nat) :
    (∃ cs, presLoop n R i0 vs = .ok cs) ∨ presLoop n R i0 vs = .error .keyError := by
  induction vs generalizing i0 with
  | nil => exact .inl ⟨[], rfl⟩
  | cons v rest ih =>
    unfold presLoop
    rcases hcol : v.color with _ | k
    · exact ih (i0 + 1)
    · dsimp only
      by_cases hmem : i0 ∈ R
      · rw [if_pos hmem]
        by_cases hk : 0 ≤ k ∧ k < (n : Int)
        · rw [if_pos hk]
          rcases ih (i0 + 1) with ⟨cs, hcs⟩ | herr
          · rw [hcs]; exact .inl ⟨_, rfl⟩
          · rw [herr]; exact .inr rfl
        · rw [if_neg hk]; exact .inr rfl
      · rw [if_neg hmem]; exact ih (i0 + 1)

theorem presLoop_ok_sound (n : Nat) (R : List Nat) (vs : List Vertex) :
    ∀ (i0 : Nat) (cs : List Constraint), presLoop n R i0 vs = .ok cs →
      ∀ (j : Nat) (k : Int), (vs.getD j default).color = some k → j < vs.length →
        (i0 + j) ∈ R →
        0 ≤ k ∧ k < (n : Int) ∧ presCon (i0 + j) k.toNat ∈ cs := by
  induction vs with
  | nil => intro i0 cs _ j k _ hj; exact absurd hj (by simp)
  | cons v rest ih =>
    intro i0 cs h j k hk hj hR
    cases j with
    | zero =>
      simp only [List.getD_cons_zero] at hk
      rw [Nat.add_zero] at hR
      unfold presLoop at h
      rw [hk] at h
      dsimp only at h
      rw [if_pos hR] at h
      by_cases hrange : 0 ≤ k ∧ k < (n : Int)
      · rw [if_pos hrange] at h
        rcases hrest : presLoop n R (i0 + 1) rest with e | cs0
        · rw [hrest] at h; exact absurd h (by simp)
        · rw [hrest] at h
          have hcs : presCon i0 k.toNat :: cs0 = cs := by
            injection h
          refine ⟨hrange.1, hrange.2, ?_⟩
          rw [Nat.add_zero, ← hcs]
          exact List.mem_cons_self _ _
      · rw [if_neg hrange] at h
        exact absurd h (by simp)
    | succ j =>
      simp only [List.getD_cons_succ] at hk
      have hj2 : j < rest.length := by simpa using hj
      have hR2 : (i0 + 1) + j ∈ R := by
        have : (i0 + 1) + j = i0 + (j + 1) := by omega
        rw [this]; exact hR
      have hstep : ∃ cs2, presLoop n R (i0 + 1) rest = .ok cs2 ∧
          ∀ con, con ∈ cs2 → con ∈ cs := by
        unfold presLoop at h
        rcases hcol : v.color with _ | k0
        · rw [hcol] at h
          exact ⟨cs, h, fun _ hc => hc⟩
        · rw [hcol] at h
          dsimp only at h
          by_cases hmem : i0 ∈ R
          · rw [if_pos hmem] at h
            by_cases hrange : 0 ≤ k0 ∧ k0 < (n : Int)
            · rw [if_pos hrange] at h
              rcases hrest : presLoop n R (i0 + 1) rest with e | cs0
              · rw [hrest] at h; exact absurd h (by simp)
              · rw [hrest] at h
                have hcs : presCon i0 k0.toNat :: cs0 = cs := by injection h
                exact ⟨cs0, rfl, fun con hc => by
                  rw [← hcs]; exact List.mem_cons_of_mem _ hc⟩
            · rw [if_neg hrange] at h
              exact absurd h (by simp)
          · rw [if_neg hmem] at h
            exact ⟨cs, h, fun _ hc => hc⟩
      obtain ⟨cs2, hok, hsub⟩ := hstep
      obtain ⟨h1, h2, h3⟩ := ih (i0 + 1) cs2 hok j k hk hj2 hR2
      refine ⟨h1, h2, ?_⟩
      have : (i0 + 1) + j = i0 + (j + 1) := by omega
      rw [this] at h3
      exact hsub _ h3

/-! Elimination lemma for a successful build, and membership of each
constraint family in the built constraint list. -/

theorem build_ok_elim (g : Graph) (wmax : ℚ) (p : LpProblem)
    (h : _colouring_lpproblem g wmax = .ok p) :
    g.vs.length ≠ 0 ∧ relevants g ≠ [] ∧
      ∃ pres, presLoop g.vs.length (relevants g) 0 g.vs = .ok pres ∧
        p = ⟨objTerms g, consList g wmax pres⟩ := by
  unfold _colouring_lpproblem at h
  by_cases h0 : g.vs.length = 0
  · rw [if_pos h0] at h; exact absurd h (by simp)
  · rw [if_neg h0] at h
    by_cases hR : relevants g = []
    · rw [if_pos hR] at h; exact absurd h (by simp)
    · rw [if_neg hR] at h
      rcases hp : presLoop g.vs.length (relevants g) 0 g.vs with e | pres
      · rw [hp] at h; exact absurd h (by simp)
      · rw [hp] at h
        refine ⟨h0, hR, pres, rfl, ?_⟩
        have := h
        injection this with h2
        exact h2.symm

theorem oneColorCon_mem_consList (g : Graph) (wmax : ℚ) (pres : List Constraint)
    (i : Nat) (hi : i ∈ relevants g) :
    oneColorCon g.vs.length i ∈ consList g wmax pres := by
  unfold consList oneColorCons
  refine List.mem_append_left _ (List.mem_append_left _ (List.mem_append_left _
    (List.mem_append_left _ ?_)))
  exact List.mem_map.mpr ⟨i, hi, rfl⟩

theorem adjCon_mem_consList (g : Graph) (wmax : ℚ) (pres : List Constraint)
    (e : Nat × Nat) (he : e ∈ g.es) (h1 : e.1 ∈ relevants g) (h2 : e.2 ∈ relevants g)
    (c : Nat) (hc : c < g.vs.length) :
    adjCon e.1 e.2 c ∈ consList g wmax pres := by
  unfold consList adjCons
  refine List.mem_append_left _ (List.mem_append_left _ (List.mem_append_left _
    (List.mem_append_right _ ?_)))
  refine List.mem_flatMap.mpr ⟨e, he, ?_⟩
  rw [if_pos ⟨h1, h2⟩]
  exact List.mem_map.mpr ⟨c, List.mem_range.mpr hc, rfl⟩

theorem capCon_mem_consList (g : Graph) (wmax : ℚ) (pres : List Constraint)
    (c : Nat) (hc : c < g.vs.length) :
    capCon g wmax c ∈ consList g wmax pres := by
  unfold consList capCons
  refine List.mem_append_left _ (List.mem_append_left _ (List.mem_append_right _ ?_))
  exact List.mem_map.mpr ⟨c, List.mem_range.mpr hc, rfl⟩

theorem presCon_mem_consList (g : Graph) (wmax : ℚ) (pres : List Constraint)
    (con : Constraint) (hc : con ∈ pres) :
    con ∈ consList g wmax pres := by
  unfold consList
  exact List.mem_append_right _ hc

/-! Arithmetic helpers about lists of 0/1 values. -/

theorem binary_sum_nonneg (f : Nat → ℚ) (l : List Nat)
    (hb : ∀ x ∈ l, f x = 0 ∨ f x = 1) : 0 ≤ (l.map f).sum := by
  refine List.sum_nonneg ?_
  intro y hy
  obtain ⟨x, hx, rfl⟩ := List.mem_map.mp hy
  rcases hb x hx with h | h <;> simp [h]

theorem binary_sum_zero (f : Nat → ℚ) (l : List Nat)
    (hb : ∀ x ∈ l, f x = 0 ∨ f x = 1) (hs : (l.map f).sum = 0) :
    ∀ x ∈ l, f x = 0 := by
  induction l with
  | nil => intro x hx; exact absurd hx (List.not_mem_nil x)
  | cons a l ih =>
    rw [List.map_cons, List.sum_cons] at hs
    have hrest : 0 ≤ (l.map f).sum :=
      binary_sum_nonneg f l (fun x hx => hb x (List.mem_cons_of_mem a hx))
    have hha : 0 ≤ f a := by
      rcases hb a (List.mem_cons_self a l) with h | h <;> simp [h]
    have hfa : f a = 0 := by linarith
    have hsum0 : (l.map f).sum = 0 := by linarith
    intro x hx
    rcases List.mem_cons.mp hx with h | h
    · rw [h]; exact hfa
    · exact ih (fun y hy => hb y (List.mem_cons_of_mem a hy)) hsum0 x h

theorem binary_sum_one_unique (f : Nat → ℚ) (l : List Nat)
    (hb : ∀ x ∈ l, f x = 0 ∨ f x = 1) (hs : (l.map f).sum = 1) :
    ∃! x, x ∈ l ∧ f x = 1 := by
  induction l with
  | nil => simp at hs
  | cons a l ih =>
    rw [List.map_cons, List.sum_cons] at hs
    rcases hb a (List.mem_cons_self a l) with ha | ha
    · rw [ha, zero_add] at hs
      obtain ⟨x, ⟨hx1, hx2⟩, hx3⟩ := ih (fun y hy => hb y (List.mem_cons_of_mem a hy)) hs
      refine ⟨x, ⟨List.mem_cons_of_mem a hx1, hx2⟩, ?_⟩
      rintro y ⟨hy1, hy2⟩
      rcases List.mem_cons.mp hy1 with h | h
      · rw [h] at hy2; rw [ha] at hy2; norm_num at hy2
      · exact hx3 y ⟨h, hy2⟩
    · rw [ha] at hs
      have hsum0 : (l.map f).sum = 0 := by linarith
      have hzero := binary_sum_zero f l (fun y hy => hb y (List.mem_cons_of_mem a hy)) hsum0
      refine ⟨a, ⟨List.mem_cons_self a l, ha⟩, ?_⟩
      rintro y ⟨hy1, hy2⟩
      rcases List.mem_cons.mp hy1 with h | h
      · exact h
      · rw [hzero y h] at hy2; norm_num at hy2

theorem binary_filter_weight_sum (f w : Nat → ℚ) (l : List Nat)
    (hb : ∀ i ∈ l, f i = 0 ∨ f i = 1) :
    ((l.filter (fun i => decide (f i = 1))).map w).sum = (l.map (fun i => w i * f i)).sum := by
  induction l with
  | nil => rfl
  | cons a l ih =>
    have ihl := ih (fun y hy => hb y (List.mem_cons_of_mem a hy))
    by_cases ha : f a = 1
    · rw [List.filter_cons, if_pos (by simp [ha]), List.map_cons, List.sum_cons,
        List.map_cons, List.sum_cons, ihl, ha, mul_one]
    · have hfa : f a = 0 := by
        rcases hb a (List.mem_cons_self a l) with h | h
        · exact h
        · exact absurd h ha
      rw [List.filter_cons, if_neg (by simp [ha]), List.map_cons, List.sum_cons, ihl,
        hfa, mul_zero, zero_add]

/-- Sum of a flatMap of rational lists, as an iterated sum. -/
theorem sum_flatMap_q {α : Type} (f : α → List ℚ) (l : List α) :
    (l.flatMap f).sum = (l.map (fun x => (f x).sum)).sum := by
  induction l with
  | nil => rfl
  | cons a l ih => simp [List.flatMap_cons, List.sum_append, ih]

/-- Gauss sum for `sum(range(n))`:  `(List.range n).sum * 2 = n * (n - 1)`. -/
theorem sum_range_mul_two (n : Nat) : (List.range n).sum * 2 = n * (n - 1) := by
  induction n with
  | zero => rfl
  | succ n ih =>
    rw [List.range_succ, List.sum_append]
    simp only [List.sum_cons, List.sum_nil, add_zero, Nat.succ_sub_one]
    rw [Nat.add_mul, ih]
    cases n with
    | zero => rfl
    | succ m =>
      simp only [Nat.succ_sub_one]
      ring

/-! The claim theorems. -/

/-- Claim C2: for every relevant vertex `i`, the built problem contains
the constraint `sum_c assign[i,c] = 1` over the candidate colours
`c ∈ 0..|V|-1`; hence in every feasible solution each relevant vertex is
assigned exactly one colour. -/
theorem exactly_one_colour_constraint (g : Graph) (wmax : ℚ) (p : LpProblem)
    (hbuild : _colouring_lpproblem g wmax = .ok p) (i : Nat) (hi : i ∈ relevants g) :
    oneColorCon g.vs.length i ∈ p.constraints ∧
    ∀ val : Var → ℚ, feasible g p val →
      ∃! c, c ∈ List.range g.vs.length ∧ val (Var.xic i c) = 1 := by
  obtain ⟨hn, hR, pres, hpres, rfl⟩ := build_ok_elim g wmax p hbuild
  refine ⟨oneColorCon_mem_consList g wmax pres i hi, ?_⟩
  intro val hfeas
  have hsat := hfeas.2 _ (oneColorCon_mem_consList g wmax pres i hi)
  have hbin : ∀ c ∈ List.range g.vs.length, val (Var.xic i c) = 0 ∨ val (Var.xic i c) = 1 :=
    fun c hc => hfeas.1.2 i hi c (List.mem_range.mp hc)
  have hsum : ((List.range g.vs.length).map (fun c => val (Var.xic i c))).sum = 1 := by
    simpa [satisfies, oneColorCon, evalTerms, List.map_map, Function.comp_def] using hsat
  exact binary_sum_one_unique _ _ hbin hsum

/-- Claim C3: for every edge whose endpoints are both relevant and every
candidate colour `c`, the built problem contains the constraint
`assign[u,c] + assign[v,c] <= 1`; hence no feasible solution assigns the
same colour to both endpoints of such an edge. -/
theorem adjacency_constraint (g : Graph) (wmax : ℚ) (p : LpProblem)
    (hbuild : _colouring_lpproblem g wmax = .ok p) (e : Nat × Nat) (he : e ∈ g.es)
    (h1 : e.1 ∈ relevants g) (h2 : e.2 ∈ relevants g) (c : Nat) (hc : c < g.vs.length) :
    adjCon e.1 e.2 c ∈ p.constraints ∧
    ∀ val : Var → ℚ, feasible g p val →
      ¬ (val (Var.xic e.1 c) = 1 ∧ val (Var.xic e.2 c) = 1) := by
  obtain ⟨hn, hR, pres, hpres, rfl⟩ := build_ok_elim g wmax p hbuild
  refine ⟨adjCon_mem_consList g wmax pres e he h1 h2 c hc, ?_⟩
  rintro val hfeas ⟨hu, hv⟩
  have hsat := hfeas.2 _ (adjCon_mem_consList g wmax pres e he h1 h2 c hc)
  simp only [satisfies, adjCon, evalTerms, List.map_cons, List.map_nil, List.sum_cons,
    List.sum_nil, hu, hv] at hsat
  norm_num at hsat

/-- Claim C4: for every candidate colour `c`, the built problem contains
the capacity constraint `sum_i weight[i] * assign[i,c] <= wmax` over the
relevant vertices; hence in every feasible solution the total weight of
the relevant vertices assigned colour `c` is at most the bound. -/
theorem capacity_constraint (g : Graph) (wmax : ℚ) (p : LpProblem)
    (hbuild : _colouring_lpproblem g wmax = .ok p) (c : Nat) (hc : c < g.vs.length) :
    capCon g wmax c ∈ p.constraints ∧
    ∀ val : Var → ℚ, feasible g p val →
      (((relevants g).filter (fun i => decide (val (Var.xic i c) = 1))).map
        (fun i => (vAttr g i).weight)).sum ≤ wmax := by
  obtain ⟨hn, hR, pres, hpres, rfl⟩ := build_ok_elim g wmax p hbuild
  refine ⟨capCon_mem_consList g wmax pres c hc, ?_⟩
  intro val hfeas
  have hsat := hfeas.2 _ (capCon_mem_consList g wmax pres c hc)
  have hbin : ∀ i ∈ relevants g, val (Var.xic i c) = 0 ∨ val (Var.xic i c) = 1 :=
    fun i hi => hfeas.1.2 i hi c hc
  have hle : evalTerms val (capCon g wmax c).terms ≤ wmax := hsat
  have heval : evalTerms val (capCon g wmax c).terms
      = ((relevants g).map (fun i => (vAttr g i).weight * val (Var.xic i c))).sum := by
    simp [capCon, evalTerms, List.map_map, Function.comp_def]
  rw [binary_filter_weight_sum (fun i => val (Var.xic i c)) (fun i => (vAttr g i).weight)
    (relevants g) hbin]
  rw [heval] at hle
  exact hle

/-- Claim C7: for every relevant vertex `i` whose colour attribute is
set to `k` at formulation time, a successful build has `k` inside the
candidate colour range and the problem contains the constraint
`assign[i,k] = 1`; hence every feasible solution keeps vertex `i` at
colour `k`. -/
theorem preservation_constraint (g : Graph) (wmax : ℚ) (p : LpProblem) (i : Nat) (k : Int)
    (hbuild : _colouring_lpproblem g wmax = .ok p)
    (hi : i ∈ relevants g) (hk : vertexColor g i = some k) :
    0 ≤ k ∧ k.toNat < g.vs.length ∧ presCon i k.toNat ∈ p.constraints ∧
    ∀ val : Var → ℚ, feasible g p val → val (Var.xic i k.toNat) = 1 := by
  obtain ⟨hn, hR, pres, hpres, rfl⟩ := build_ok_elim g wmax p hbuild
  have hilen : i < g.vs.length := ((mem_relevants g i).mp hi).1
  obtain ⟨h1, h2, h3⟩ := presLoop_ok_sound g.vs.length (relevants g) g.vs 0 pres hpres i k
    hk hilen (by rw [Nat.zero_add]; exact hi)
  rw [Nat.zero_add] at h3
  refine ⟨h1, by omega, presCon_mem_consList g wmax pres _ h3, ?_⟩
  intro val hfeas
  have hsat := hfeas.2 _ (presCon_mem_consList g wmax pres _ h3)
  simpa [satisfies, presCon, evalTerms] using hsat

/-- Claim C1 (amended): the objective of the built problem is
`sum_c big_number * xc[c] + sum_i sum_c c * xic[(i,c)]`, where
`big_number = |R| * sum(range(|V|)) * 2 = |R| * |V| * (|V|-1)`.  That
constant strictly exceeds the largest possible value `|R| * (|V|-1)` of
the secondary term whenever `|V| >= 2`, and strictly exceeds
`|R| * |V| * 2` whenever `|V| >= 4` (but not for smaller graphs, see the
counterexample). -/
theorem objective_value (g : Graph) (wmax : ℚ) (p : LpProblem)
    (hbuild : _colouring_lpproblem g wmax = .ok p) :
    (∀ val : Var → ℚ, evalTerms val p.objective =
        ((List.range g.vs.length).map (fun c => (big_number g : ℚ) * val (Var.xc c))).sum
        + ((relevants g).map (fun i =>
            ((List.range g.vs.length).map
              (fun (c : Nat) => (c : ℚ) * val (Var.xic i c))).sum)).sum) ∧
    big_number g = (relevants g).length * (g.vs.length * (g.vs.length - 1)) ∧
    (2 ≤ g.vs.length → (relevants g).length * (g.vs.length - 1) < big_number g) ∧
    (4 ≤ g.vs.length → (relevants g).length * g.vs.length * 2 < big_number g) := by
  obtain ⟨hn, hR, pres, hpres, rfl⟩ := build_ok_elim g wmax p hbuild
  have hlen : 0 < (relevants g).length := List.length_pos.mpr hR
  have hbig : big_number g = (relevants g).length * (g.vs.length * (g.vs.length - 1)) := by
    unfold big_number
    rw [Nat.mul_assoc, sum_range_mul_two g.vs.length]
  refine ⟨?_, hbig, ?_, ?_⟩
  · intro val
    show evalTerms val (objTerms g) = _
    simp only [objTerms, evalTerms, List.map_append, List.sum_append]
    congr 1
    · simp [List.map_map, Function.comp_def]
    · rw [List.map_flatMap, sum_flatMap_q]
      simp [List.map_map, Function.comp_def]
  · intro h2
    rw [hbig]
    have h1n : 1 * (g.vs.length - 1) < g.vs.length * (g.vs.length - 1) :=
      mul_lt_mul_of_pos_right (by omega) (by omega)
    calc (relevants g).length * (g.vs.length - 1)
        = (relevants g).length * (1 * (g.vs.length - 1)) := by rw [one_mul]
      _ < (relevants g).length * (g.vs.length * (g.vs.length - 1)) :=
          mul_lt_mul_of_pos_left h1n hlen
  · intro h4
    rw [hbig]
    have hassoc : (relevants g).length * (g.vs.length * (g.vs.length - 1))
        = (relevants g).length * g.vs.length * (g.vs.length - 1) := by ring
    rw [hassoc]
    exact mul_lt_mul_of_pos_left (by omega) (Nat.mul_pos hlen (by omega))

/-- Claim C8 (amended): a supplied capacity bound `w > 0` is used
exactly as the per-colour bound of the capacity constraints; with no
supplied bound the total weight of all vertices is used instead (and,
per the counterexample, a supplied bound of 0 is also replaced by the
total weight, because the code treats 0 as unset). -/
theorem capacity_bound_resolution (g : Graph) (w : ℚ) (hw : 0 < w) :
    resolveWmax g (some w) = w ∧ resolveWmax g none = totalWeight g ∧
    ∀ p : LpProblem, _colouring_lpproblem g w = .ok p →
      ∀ c : Nat, c < g.vs.length → capCon g w c ∈ p.constraints := by
  refine ⟨?_, rfl, ?_⟩
  · simp [resolveWmax, ne_of_gt hw]
  · intro p hp c hc
    obtain ⟨hn, hR, pres, hpres, rfl⟩ := build_ok_elim g w p hp
    exact capCon_mem_consList g w pres c hc

/-- Claim C9: on a graph with no relevant vertex (including the empty
graph), `coloring` does not return a result code but raises: the `eval`
of a malformed expression string fails; and a successful build requires
at least one relevant vertex. -/
theorem no_relevant_vertex_raises (g : Graph) (wo : Option ℚ) (pr : Bool)
    (solve : LpProblem → SolverResult) (hR : relevants g = []) :
    coloring g wo pr solve = .error .evalSyntaxError ∧
    ∀ (w : ℚ) (p : LpProblem), _colouring_lpproblem g w ≠ .ok p := by
  have hbuild : ∀ (h : Graph) (w : ℚ), relevants h = [] →
      _colouring_lpproblem h w = .error .evalSyntaxError := by
    intro h w hRh
    unfold _colouring_lpproblem
    by_cases h0 : h.vs.length = 0
    · rw [if_pos h0]
    · rw [if_neg h0, if_pos hRh]
  constructor
  · have hR1 : relevants (prepGraph g pr) = [] := by rw [relevants_prepGraph]; exact hR
    simp only [coloring, hbuild (prepGraph g pr) (resolveWmax g wo) hR1]
  · intro w p hok
    rw [hbuild g w hR] at hok
    exact absurd hok (by simp)

/-- Claim C10: when `preserve` is on and some relevant vertex carries a
pre-set colour outside the candidate set `0..|V|-1`, `coloring` raises a
`KeyError` (modelled as `.error .keyError`) instead of returning a
result code. -/
theorem out_of_range_preserved_colour_raises (g : Graph) (wo : Option ℚ)
    (solve : LpProblem → SolverResult) (i : Nat) (k : Int)
    (hi : i ∈ relevants g) (hk : vertexColor g i = some k)
    (hout : k < 0 ∨ (g.vs.length : Int) ≤ k) :
    coloring g wo true solve = .error .keyError := by
  have hilen : i < g.vs.length := ((mem_relevants g i).mp hi).1
  have hn0 : ¬ g.vs.length = 0 := by omega
  have hR : ¬ relevants g = [] := fun h => by rw [h] at hi; exact (List.not_mem_nil i) hi
  have hpres : presLoop g.vs.length (relevants g) 0 g.vs = .error .keyError := by
    rcases presLoop_ok_or_keyError g.vs.length (relevants g) g.vs 0 with ⟨cs, hcs⟩ | herr
    · obtain ⟨h1, h2, _⟩ := presLoop_ok_sound g.vs.length (relevants g) g.vs 0 cs hcs i k
        hk hilen (by rw [Nat.zero_add]; exact hi)
      omega
    · exact herr
  have hbuild : _colouring_lpproblem g (resolveWmax g wo) = .error .keyError := by
    unfold _colouring_lpproblem
    rw [if_neg hn0, if_neg hR, hpres]
  have hprep : prepGraph g true = g := rfl
  simp only [coloring, hprep, hbuild]

/-- Claim C6 (amended): result extraction never writes a non-relevant
vertex, so after any completed call its colour attribute equals its
pre-call value when `preserve` is on, and `none` (cleared) when
`preserve` is off — clearing does erase pre-existing colours of
non-relevant vertices, contrary to the original claim (see the
counterexample). -/
theorem nonrelevant_vertex_colour (g : Graph) (wo : Option ℚ) (pr : Bool)
    (solve : LpProblem → SolverResult) (code : Nat) (g2 : Graph) (i : Nat)
    (h : coloring g wo pr solve = .ok (code, g2))
    (hrel : (vAttr g i).relevant = false) :
    vertexColor g2 i = if pr then vertexColor g i else none := by
  have hni : i ∉ relevants (prepGraph g pr) := by
    rw [relevants_prepGraph]
    intro hmem
    rw [((mem_relevants g i).mp hmem).2] at hrel
    exact absurd hrel (by simp)
  have hcol1 : vertexColor (prepGraph g pr) i = if pr then vertexColor g i else none :=
    vertexColor_prepGraph g pr i
  simp only [coloring] at h
  rcases hb : _colouring_lpproblem (prepGraph g pr) (resolveWmax g wo) with e | p
  · rw [hb] at h; exact absurd h (by simp)
  · rw [hb] at h
    dsimp only at h
    by_cases hst : (solve p).status = 1
    · rw [if_pos hst] at h
      simp only [Except.ok.injEq, Prod.mk.injEq] at h
      obtain ⟨-, hg2⟩ := h
      subst hg2
      rw [vertexColor_extractLoop_ne _ _ _ _ ?_]
      · exact hcol1
      · intro q hq
        obtain ⟨j, hj, hq2⟩ := List.mem_flatMap.mp hq
        obtain ⟨c, hc, rfl⟩ := List.mem_map.mp hq2
        exact fun he => hni (he ▸ hj)
    · rw [if_neg hst] at h
      simp only [Except.ok.injEq, Prod.mk.injEq] at h
      obtain ⟨-, hg2⟩ := h
      subst hg2
      exact hcol1

/-- Claim C5: when the build succeeds, `coloring` returns 1 exactly
when the solver status is Optimal (`1`); on any other status it returns
0 with every colour attribute exactly as set just before solving; and on
Optimal it runs the extraction, which writes colour `c` into each
relevant vertex whose variable `assign[i,c]` exceeds the tolerance
`epsilon = 0.5` (stated for the unambiguous case of at most one such
colour per vertex). -/
theorem solver_status_and_extraction (g : Graph) (wo : Option ℚ) (pr : Bool)
    (solve : LpProblem → SolverResult) (p : LpProblem)
    (hbuild : _colouring_lpproblem (prepGraph g pr) (resolveWmax g wo) = .ok p) :
    ((∃ g2, coloring g wo pr solve = .ok (1, g2)) ↔ (solve p).status = 1) ∧
    ((solve p).status ≠ 1 → coloring g wo pr solve = .ok (0, prepGraph g pr)) ∧
    ((solve p).status = 1 → coloring g wo pr solve =
        .ok (1, extractLoop (solve p).value (xicPairs (prepGraph g pr)) (prepGraph g pr))) ∧
    ((solve p).status = 1 → ∀ i ∈ relevants (prepGraph g pr),
      ∀ c : Nat, c < (prepGraph g pr).vs.length →
      epsilon < (solve p).value (Var.xic i c) →
      (∀ c' : Nat, c' < (prepGraph g pr).vs.length → c' ≠ c →
        (solve p).value (Var.xic i c') ≤ epsilon) →
      ∀ g2 : Graph, coloring g wo pr solve = .ok (1, g2) →
        vertexColor g2 i = some (Int.ofNat c)) := by
  have hcol : coloring g wo pr solve =
      (if (solve p).status = 1 then
        .ok (1, extractLoop (solve p).value (xicPairs (prepGraph g pr)) (prepGraph g pr))
       else .ok (0, prepGraph g pr)) := by
    simp only [coloring, hbuild]
  refine ⟨?_, ?_, ?_, ?_⟩
  · constructor
    · rintro ⟨g2, hg2⟩
      by_contra hst
      rw [hcol, if_neg hst] at hg2
      simp at hg2
    · intro hst
      exact ⟨_, by rw [hcol, if_pos hst]⟩
  · intro hst; rw [hcol, if_neg hst]
  · intro hst; rw [hcol, if_pos hst]
  · intro hst i hi c hclen hcval huniq g2 hg2
    rw [hcol, if_pos hst] at hg2
    simp only [Except.ok.injEq, Prod.mk.injEq] at hg2
    obtain ⟨-, hg2⟩ := hg2
    subst hg2
    obtain ⟨s, t, hst2⟩ := List.append_of_mem hi
    have hnodup : (relevants (prepGraph g pr)).Nodup := nodup_relevants _
    rw [hst2] at hnodup
    obtain ⟨hs, ht, hdisj⟩ := List.nodup_append.mp hnodup
    have hit : i ∉ t := (List.nodup_cons.mp ht).1
    have hilen : i < (prepGraph g pr).vs.length := ((mem_relevants _ i).mp hi).1
    unfold xicPairs
    rw [hst2, List.flatMap_append, List.flatMap_cons, extractLoop_append, extractLoop_append]
    have hne_t : ∀ q ∈ t.flatMap (fun j =>
        (List.range (prepGraph g pr).vs.length).map (fun c => (j, c))), q.1 ≠ i := by
      intro q hq
      obtain ⟨j, hj, hq2⟩ := List.mem_flatMap.mp hq
      obtain ⟨c', hc', rfl⟩ := List.mem_map.mp hq2
      exact fun he => hit (he ▸ hj)
    rw [vertexColor_extractLoop_ne _ _ _ _ hne_t]
    refine vertexColor_extractLoop_unique (solve p).value i c
      (List.range (prepGraph g pr).vs.length) _ ?_ (List.mem_range.mpr hclen) hcval ?_
    · rw [length_extractLoop]
      exact hilen
    · intro c' hc' hval
      by_contra hne
      exact absurd hval (not_lt.mpr (huniq c' (List.mem_range.mp hc') hne))

/-! Witnesses and counterexamples on concrete instances. -/

unseal Rat.add Rat.mul Rat.inv Rat.sub in
/-- Witness for claim C2 on the one-vertex graph `gW`. -/
theorem exactly_one_colour_constraint_witness :
    _colouring_lpproblem gW 1 = .ok pW ∧ 0 ∈ relevants gW ∧
    oneColorCon gW.vs.length 0 ∈ pW.constraints ∧
    (∃! c, c ∈ List.range gW.vs.length ∧ valW (Var.xic 0 c) = 1) := by
  have h := exactly_one_colour_constraint gW 1 pW rfl 0 (by decide)
  exact ⟨rfl, by decide, h.1, h.2 valW (by decide)⟩

unseal Rat.add Rat.mul Rat.inv Rat.sub in
/-- Witness for claim C3 on the two-vertex graph `gE` with its edge. -/
theorem adjacency_constraint_witness :
    _colouring_lpproblem gE 2 = .ok pE ∧ (0, 1) ∈ gE.es ∧
    adjCon 0 1 0 ∈ pE.constraints ∧
    ¬ (valE (Var.xic 0 0) = 1 ∧ valE (Var.xic 1 0) = 1) := by
  have h := adjacency_constraint gE 2 pE rfl (0, 1) (by decide) (by decide) (by decide)
    0 (by decide)
  exact ⟨rfl, by decide, h.1, h.2 valE (by decide)⟩

unseal Rat.add Rat.mul Rat.inv Rat.sub in
/-- Witness for claim C4 on `gE`. -/
theorem capacity_constraint_witness :
    _colouring_lpproblem gE 2 = .ok pE ∧
    capCon gE 2 0 ∈ pE.constraints ∧
    (((relevants gE).filter (fun i => decide (valE (Var.xic i 0) = 1))).map
      (fun i => (vAttr gE i).weight)).sum ≤ 2 := by
  have h := capacity_constraint gE 2 pE rfl 0 (by decide)
  exact ⟨rfl, h.1, h.2 valE (by decide)⟩

unseal Rat.add Rat.mul Rat.inv Rat.sub in
/-- Witness for claim C7 on the pre-coloured one-vertex graph `gP7`. -/
theorem preservation_constraint_witness :
    _colouring_lpproblem gP7 1 = .ok pP7 ∧ 0 ∈ relevants gP7 ∧
    vertexColor gP7 0 = some 0 ∧
    presCon 0 ((0 : Int).toNat) ∈ pP7.constraints ∧
    valW (Var.xic 0 ((0 : Int).toNat)) = 1 := by
  have h := preservation_constraint gP7 1 pP7 0 0 rfl (by decide) (by decide)
  exact ⟨rfl, by decide, by decide, h.2.2.1, h.2.2.2 valW (by decide)⟩

unseal Rat.add Rat.mul Rat.inv Rat.sub in
/-- Witness for the amended claim C1 on `gW`. -/
theorem objective_value_witness :
    _colouring_lpproblem gW 1 = .ok pW ∧
    evalTerms valW pW.objective =
      ((List.range gW.vs.length).map (fun c => (big_number gW : ℚ) * valW (Var.xc c))).sum
      + ((relevants gW).map (fun i => ((List.range gW.vs.length).map
          (fun (c : Nat) => (c : ℚ) * valW (Var.xic i c))).sum)).sum ∧
    big_number gW = (relevants gW).length * (gW.vs.length * (gW.vs.length - 1)) :=
  ⟨rfl, (objective_value gW 1 pW rfl).1 valW, (objective_value gW 1 pW rfl).2.1⟩

unseal Rat.add Rat.mul Rat.inv Rat.sub in
/-- Counterexample to claim C1 as stated: on the one-vertex graph `gW`
(one relevant vertex) the constant `big_number` used in the objective is
0, which is not strictly greater than `|R| * |V| * 2 = 2`. -/
theorem objective_big_number_cex :
    relevants gW ≠ [] ∧
    _colouring_lpproblem gW 1 = .ok pW ∧
    pW.objective.head? = some ((big_number gW : ℚ), Var.xc 0) ∧
    ¬ ((relevants gW).length * gW.vs.length * 2 < big_number gW) :=
  ⟨by decide, rfl, by decide, by decide⟩

unseal Rat.add Rat.mul Rat.inv Rat.sub in
/-- Witness for claim C5 on `gW` with the Optimal stub solver. -/
theorem solver_status_and_extraction_witness :
    _colouring_lpproblem (prepGraph gW false) (resolveWmax gW none) = .ok pW ∧
    coloring gW none false solveOpt =
      .ok (1, extractLoop (solveOpt pW).value (xicPairs (prepGraph gW false))
        (prepGraph gW false)) ∧
    vertexColor (extractLoop (solveOpt pW).value (xicPairs (prepGraph gW false))
        (prepGraph gW false)) 0 = some (Int.ofNat 0) := by
  have h := solver_status_and_extraction gW none false solveOpt pW (by decide)
  exact ⟨by decide, h.2.2.1 (by decide),
    h.2.2.2 (by decide) 0 (by decide) 0 (by decide) (by decide) (by decide) _
      (h.2.2.1 (by decide))⟩

unseal Rat.add Rat.mul Rat.inv Rat.sub in
/-- Witness for the amended claim C6: with `preserve` on, a completed
call leaves the non-relevant vertex 1 of `gC6` untouched. -/
theorem nonrelevant_vertex_colour_witness :
    coloring gC6 none true solve0 = .ok (0, gC6) ∧
    (vAttr gC6 1).relevant = false ∧
    vertexColor gC6 1 = if true then vertexColor gC6 1 else none := by
  have h := nonrelevant_vertex_colour gC6 none true solve0 0 gC6 1 (by decide) (by decide)
  exact ⟨by decide, by decide, h⟩

unseal Rat.add Rat.mul Rat.inv Rat.sub in
/-- Counterexample to claim C6 as stated: with `preserve` off, the call
clears the colour attribute of the non-relevant vertex 1 of `gC6` from 5
to unset, so its value after the call differs from its value before. -/
theorem nonrelevant_vertex_cleared_cex :
    (vAttr gC6 1).relevant = false ∧
    vertexColor gC6 1 = some 5 ∧
    coloring gC6 none false solve0 = .ok (0, clearColors gC6) ∧
    vertexColor (clearColors gC6) 1 = none := by decide

unseal Rat.add Rat.mul Rat.inv Rat.sub in
/-- Witness for the amended claim C8 with the positive bound 3 on `gW8`. -/
theorem capacity_bound_resolution_witness :
    (0 : ℚ) < 3 ∧ resolveWmax gW8 (some 3) = 3 ∧
    resolveWmax gW8 none = totalWeight gW8 ∧
    capCon gW8 3 0 ∈ pC8.constraints := by
  have h := capacity_bound_resolution gW8 3 (by norm_num)
  exact ⟨by norm_num, h.1, h.2.1, h.2.2 pC8 rfl 0 (by decide)⟩

unseal Rat.add Rat.mul Rat.inv Rat.sub in
/-- Counterexample to claim C8 as stated: the supplied bound 0 satisfies
`0 ≤ 0` but the built capacity constraint uses the total weight 2 of
`gW8` instead of 0. -/
theorem capacity_bound_zero_cex :
    (0 : ℚ) ≤ 0 ∧
    resolveWmax gW8 (some 0) ≠ 0 ∧
    resolveWmax gW8 (some 0) = totalWeight gW8 ∧
    _colouring_lpproblem gW8 (resolveWmax gW8 (some 0)) = .ok pW8 ∧
    capCon gW8 (totalWeight gW8) 0 ∈ pW8.constraints ∧
    capCon gW8 0 0 ∉ pW8.constraints := by decide

unseal Rat.add Rat.mul Rat.inv Rat.sub in
/-- Witness for claim C9 on the one-vertex graph `gE1` whose only
vertex is not relevant. -/
theorem no_relevant_vertex_raises_witness :
    relevants gE1 = [] ∧
    coloring gE1 none false solve0 = .error .evalSyntaxError ∧
    _colouring_lpproblem gE1 1 ≠ .ok default := by
  have h := no_relevant_vertex_raises gE1 none false solve0 (by decide)
  exact ⟨by decide, h.1, h.2 1 default⟩

unseal Rat.add Rat.mul Rat.inv Rat.sub in
/-- Witness for claim C10 on `gP10`, whose relevant vertex carries the
out-of-range pre-set colour 5. -/
theorem out_of_range_preserved_colour_raises_witness :
    0 ∈ relevants gP10 ∧ vertexColor gP10 0 = some 5 ∧
    coloring gP10 none true solve0 = .error .keyError := by
  have h := out_of_range_preserved_colour_raises gP10 none solve0 0 5 (by decide)
    (by decide) (by decide)
  exact ⟨by decide, by decide, h⟩

end Coloring
